import Mathlib

/-
Shallow embedding of the doubly linked list repository
(src/doubly_linked_list.py, the length-tracked variant, and
src/linked_list.py, the untracked variant).

Nodes live in an explicit heap addressed by natural-number ids, which
models Python object identity: `heap : Nat → Node` together with a
`fresh` allocation counter.  Each Python `Node` object becomes a heap
cell holding its `value`, `next` and `prev` fields (`Option Nat`
references, `none` being Python's `None`).  Python assertions are
modelled by `Option`: an operation returns `none` exactly when one of
its `assert` statements would fail.  `get`'s `raise IndexError(...)`
is modelled by an explicit error constructor carrying the message
string from the source.
-/

set_option maxHeartbeats 1000000

/-- One node of the doubly linked list (class `Node` in both source files):
a stored integer `value` and optional references `next` / `prev`. -/
structure Node where
  value : Int
  next : Option Nat
  prev : Option Nat
deriving DecidableEq

instance : Inhabited Node := ⟨{ value := 0, next := none, prev := none }⟩

/-- Heap update at one node id (models one Python attribute assignment
composed into a whole-object write). -/
def writeNode (h : Nat → Node) (i : Nat) (nd : Node) : Nat → Node :=
  fun j => if j = i then nd else h j

/-- Models the Python statement `node_i.next = p`. -/
def setNext (h : Nat → Node) (i : Nat) (p : Option Nat) : Nat → Node :=
  writeNode h i { h i with next := p }

/-- Models the Python statement `node_i.prev = p`. -/
def setPrev (h : Nat → Node) (i : Nat) (p : Option Nat) : Nat → Node :=
  writeNode h i { h i with prev := p }

/-- State of the length-tracked `DoublyLinkedList` of
src/doubly_linked_list.py: the node heap with its allocation counter,
plus the `head`, `tail` and `length` attributes. -/
structure DLLState where
  heap : Nat → Node
  fresh : Nat
  head : Option Nat
  tail : Option Nat
  length : Int

/-- The state produced by `DoublyLinkedList.__init__`:
`head = None`, `tail = None`, `length = 0`, nothing allocated. -/
def emptyDLL : DLLState :=
  { heap := fun _ => { value := 0, next := none, prev := none },
    fresh := 0, head := none, tail := none, length := 0 }

/-- `DoublyLinkedList.append_left` of src/doubly_linked_list.py. -/
def append_left (s : DLLState) (v : Int) : DLLState :=
  let newId := s.fresh
  let h1 := writeNode s.heap newId { value := v, next := none, prev := none }
  match s.head with
  | none =>
      { heap := h1, fresh := newId + 1, head := some newId, tail := some newId,
        length := s.length + 1 }
  | some hd =>
      { heap := setPrev (setNext h1 newId (some hd)) hd (some newId),
        fresh := newId + 1, head := some newId, tail := s.tail,
        length := s.length + 1 }

/-- `DoublyLinkedList.append_right` of src/doubly_linked_list.py. -/
def append_right (s : DLLState) (v : Int) : DLLState :=
  let newId := s.fresh
  let h1 := writeNode s.heap newId { value := v, next := none, prev := none }
  match s.tail with
  | none =>
      { heap := h1, fresh := newId + 1, head := some newId, tail := some newId,
        length := s.length + 1 }
  | some tl =>
      { heap := setNext (setPrev h1 newId (some tl)) tl (some newId),
        fresh := newId + 1, head := s.head, tail := some newId,
        length := s.length + 1 }

/-- `DoublyLinkedList.pop_left` of src/doubly_linked_list.py.
Returns `none` if the internal `assert self.head` fails, otherwise
`some (returned value or None, new state)`. -/
def pop_left (s : DLLState) : Option (Option Int × DLLState) :=
  match s.head with
  | none => some (none, s)
  | some hd =>
      let removed_value := (s.heap hd).value
      if s.head = s.tail then
        some (some removed_value, { s with head := none, tail := none, length := 0 })
      else
        match (s.heap hd).next with
        | none => none
        | some hd2 =>
            some (some removed_value,
              { s with heap := setPrev s.heap hd2 none, head := some hd2,
                       length := s.length - 1 })

/-- `DoublyLinkedList.pop_right` of src/doubly_linked_list.py. -/
def pop_right (s : DLLState) : Option (Option Int × DLLState) :=
  match s.tail with
  | none => some (none, s)
  | some tl =>
      let removed_value := (s.heap tl).value
      if s.head = s.tail then
        some (some removed_value, { s with head := none, tail := none, length := 0 })
      else
        match (s.heap tl).prev with
        | none => none
        | some tl2 =>
            some (some removed_value,
              { s with heap := setNext s.heap tl2 none, tail := some tl2,
                       length := s.length - 1 })

/-- Result of `DoublyLinkedList.get`: a returned value, a raised
`IndexError` carrying its message string, or an assertion failure. -/
inductive GetResult where
  | ok : Int → GetResult
  | indexError : String → GetResult
  | assertFail : GetResult
deriving DecidableEq

/-- The forward loop of `get`: `for _ in range(k): assert current;
current = current.next`.  Returns `none` if an assertion fails,
otherwise the final value of `current`. -/
def walkFwd (h : Nat → Node) : Option Nat → Nat → Option (Option Nat)
  | cur, 0 => some cur
  | none, _ + 1 => none
  | some i, k + 1 => walkFwd h (h i).next k

/-- The backward loop of `get`: `for _ in range(k): assert current;
current = current.prev`. -/
def walkBwd (h : Nat → Node) : Option Nat → Nat → Option (Option Nat)
  | cur, 0 => some cur
  | none, _ + 1 => none
  | some i, k + 1 => walkBwd h (h i).prev k

/-- `DoublyLinkedList.get` of src/doubly_linked_list.py.  `Int.fdiv`
is Python's floor division `//`. -/
def get (s : DLLState) (index : Int) : GetResult :=
  if index < 0 ∨ index ≥ s.length then GetResult.indexError "Index out of range"
  else if index < Int.fdiv s.length 2 then
    match walkFwd s.heap s.head index.toNat with
    | none => GetResult.assertFail
    | some none => GetResult.assertFail
    | some (some i) => GetResult.ok (s.heap i).value
  else
    match walkBwd s.heap s.tail (s.length - index - 1).toNat with
    | none => GetResult.assertFail
    | some none => GetResult.assertFail
    | some (some i) => GetResult.ok (s.heap i).value

/-- Fueled traversal of `__iter__`: `current = self.head; while current:
yield current.value; current = current.next`.  The fuel bounds the
number of yields; on every reachable state the chain ends before the
fuel runs out. -/
def iterFrom (h : Nat → Node) : Option Nat → Nat → List Int
  | _, 0 => []
  | none, _ + 1 => []
  | some i, fuel + 1 => (h i).value :: iterFrom h (h i).next fuel

/-- The full sequence of values yielded by iterating the list
(fuel `s.fresh` suffices for every reachable state). -/
def toList (s : DLLState) : List Int :=
  iterFrom s.heap s.head s.fresh

/-- Follow `next` for `k` steps from an optional node reference
(staying at `none` once absent). -/
def follow (h : Nat → Node) : Option Nat → Nat → Option Nat
  | cur, 0 => cur
  | none, _ + 1 => none
  | some i, k + 1 => follow h (h i).next k

/-- A node id is live in a state when it is reachable from `head`
by following `next`. -/
def Live (s : DLLState) (j : Nat) : Prop :=
  ∃ k, follow s.heap s.head k = some j

/-- Swap the `next` and `prev` fields of a node (mirror symmetry of
the two source files' left/right operation pairs). -/
def flipNode (nd : Node) : Node :=
  { value := nd.value, next := nd.prev, prev := nd.next }

/-- Pointwise heap mirror. -/
def flipHeap (h : Nat → Node) : Nat → Node :=
  fun i => flipNode (h i)

/-- Mirror a whole state: swap `head` with `tail` and `next` with
`prev`.  The right-end operations are exactly the mirrors of the
left-end ones. -/
def mirror (s : DLLState) : DLLState :=
  { heap := flipHeap s.heap, fresh := s.fresh, head := s.tail, tail := s.head,
    length := s.length }

/-- Fold `append_left` over a list of values (first element appended
first). -/
def appendAllLeft (s : DLLState) (vs : List Int) : DLLState :=
  vs.foldl append_left s

/-- Fold `append_right` over a list of values. -/
def appendAllRight (s : DLLState) (vs : List Int) : DLLState :=
  vs.foldl append_right s

/-- Call `pop_left` `n` times, collecting the returned values;
`none` if any call hits an assertion failure. -/
def popN_left : DLLState → Nat → Option (List (Option Int) × DLLState)
  | s, 0 => some ([], s)
  | s, n + 1 =>
      match pop_left s with
      | none => none
      | some (r, s2) =>
          match popN_left s2 n with
          | none => none
          | some (rs, s3) => some (r :: rs, s3)

/-- Call `pop_right` `n` times, collecting the returned values. -/
def popN_right : DLLState → Nat → Option (List (Option Int) × DLLState)
  | s, 0 => some ([], s)
  | s, n + 1 =>
      match pop_right s with
      | none => none
      | some (r, s2) =>
          match popN_right s2 n with
          | none => none
          | some (rs, s3) => some (r :: rs, s3)

namespace LL

/-- State of the untracked `DoublyLinkedList` of src/linked_list.py:
identical to the tracked one except that no `length` attribute exists. -/
structure LLState where
  heap : Nat → Node
  fresh : Nat
  head : Option Nat
  tail : Option Nat

/-- `DoublyLinkedList.__init__` of src/linked_list.py. -/
def emptyLL : LLState :=
  { heap := fun _ => { value := 0, next := none, prev := none },
    fresh := 0, head := none, tail := none }

/-- `DoublyLinkedList.append_left` of src/linked_list.py. -/
def append_left (s : LLState) (v : Int) : LLState :=
  let newId := s.fresh
  let h1 := writeNode s.heap newId { value := v, next := none, prev := none }
  match s.head with
  | none => { heap := h1, fresh := newId + 1, head := some newId, tail := some newId }
  | some hd =>
      { heap := setPrev (setNext h1 newId (some hd)) hd (some newId),
        fresh := newId + 1, head := some newId, tail := s.tail }

/-- `DoublyLinkedList.append_right` of src/linked_list.py. -/
def append_right (s : LLState) (v : Int) : LLState :=
  let newId := s.fresh
  let h1 := writeNode s.heap newId { value := v, next := none, prev := none }
  match s.tail with
  | none => { heap := h1, fresh := newId + 1, head := some newId, tail := some newId }
  | some tl =>
      { heap := setNext (setPrev h1 newId (some tl)) tl (some newId),
        fresh := newId + 1, head := s.head, tail := some newId }

/-- `DoublyLinkedList.pop_left` of src/linked_list.py. -/
def pop_left (s : LLState) : Option (Option Int × LLState) :=
  match s.head with
  | none => some (none, s)
  | some hd =>
      let removed_value := (s.heap hd).value
      if s.head = s.tail then
        some (some removed_value, { s with head := none, tail := none })
      else
        match (s.heap hd).next with
        | none => none
        | some hd2 =>
            some (some removed_value,
              { s with heap := setPrev s.heap hd2 none, head := some hd2 })

/-- `DoublyLinkedList.pop_right` of src/linked_list.py. -/
def pop_right (s : LLState) : Option (Option Int × LLState) :=
  match s.tail with
  | none => some (none, s)
  | some tl =>
      let removed_value := (s.heap tl).value
      if s.head = s.tail then
        some (some removed_value, { s with head := none, tail := none })
      else
        match (s.heap tl).prev with
        | none => none
        | some tl2 =>
            some (some removed_value,
              { s with heap := setNext s.heap tl2 none, tail := some tl2 })

/-- Iteration of the untracked variant (same `__iter__` body). -/
def toList (s : LLState) : List Int :=
  iterFrom s.heap s.head s.fresh

end LL

/-- Forget the `length` attribute, turning a tracked state into an
untracked one. -/
def erase (s : DLLState) : LL.LLState :=
  { heap := s.heap, fresh := s.fresh, head := s.head, tail := s.tail }

/-- One call of the shared public mutating interface of the two
variants. -/
inductive Op where
  | appL : Int → Op
  | appR : Int → Op
  | popL : Op
  | popR : Op

/-- Run a call sequence on the tracked variant, collecting every pop
result; `none` on an assertion failure. -/
def runDLL : DLLState → List Op → Option (DLLState × List (Option Int))
  | s, [] => some (s, [])
  | s, Op.appL v :: ops => runDLL (append_left s v) ops
  | s, Op.appR v :: ops => runDLL (append_right s v) ops
  | s, Op.popL :: ops =>
      match pop_left s with
      | none => none
      | some (r, s2) => Option.map (fun q => (q.1, r :: q.2)) (runDLL s2 ops)
  | s, Op.popR :: ops =>
      match pop_right s with
      | none => none
      | some (r, s2) => Option.map (fun q => (q.1, r :: q.2)) (runDLL s2 ops)

/-- Run a call sequence on the untracked variant. -/
def runLL : LL.LLState → List Op → Option (LL.LLState × List (Option Int))
  | s, [] => some (s, [])
  | s, Op.appL v :: ops => runLL (LL.append_left s v) ops
  | s, Op.appR v :: ops => runLL (LL.append_right s v) ops
  | s, Op.popL :: ops =>
      match LL.pop_left s with
      | none => none
      | some (r, s2) => Option.map (fun q => (q.1, r :: q.2)) (runLL s2 ops)
  | s, Op.popR :: ops =>
      match LL.pop_right s with
      | none => none
      | some (r, s2) => Option.map (fun q => (q.1, r :: q.2)) (runLL s2 ops)

/-- The first node of a segment, or the given fallback reference when
the segment is empty. -/
def frontPtr (ids : List Nat) (n : Option Nat) : Option Nat :=
  match ids with
  | [] => n
  | j :: _ => some j

/-- The last node of a segment, or the given fallback reference when
the segment is empty. -/
def backPtr (ids : List Nat) (p : Option Nat) : Option Nat :=
  match ids.getLast? with
  | none => p
  | some a => some a

/-- `seg h p ids n`: the node ids `ids` form a doubly linked chain in
heap `h`, the first node's `prev` being `p`, each node's `next` being
the following node, and the last node's `next` being `n`. -/
def seg (h : Nat → Node) : Option Nat → List Nat → Option Nat → Prop
  | _, [], _ => True
  | p, i :: rest, n =>
      (h i).prev = p ∧ (h i).next = frontPtr rest n ∧ seg h (some i) rest n

/-- The representation invariant of the tracked list: `ids` lists the
nodes from head to tail; they chain correctly, `head`/`tail`/`length`
agree with it, all ids are allocated and distinct. -/
structure Represents (s : DLLState) (ids : List Nat) : Prop where
  seg_ok : seg s.heap none ids none
  head_ok : s.head = ids.head?
  tail_ok : s.tail = ids.getLast?
  len_ok : s.length = (ids.length : Int)
  bound : ∀ i ∈ ids, i < s.fresh
  nodup : ids.Nodup

/-- The values stored at a list of node ids. -/
def absList (h : Nat → Node) (ids : List Nat) : List Int :=
  ids.map (fun i => (h i).value)

/-- A state models an abstract list of integers. -/
def Models (s : DLLState) (l : List Int) : Prop :=
  ∃ ids, Represents s ids ∧ absList s.heap ids = l

/-- States reachable from the empty list through the public mutating
operations (iteration and `get` never mutate: their translations are
pure functions of the state). -/
inductive Reachable : DLLState → Prop where
  | empty : Reachable emptyDLL
  | appL : ∀ {s : DLLState} (v : Int), Reachable s → Reachable (append_left s v)
  | appR : ∀ {s : DLLState} (v : Int), Reachable s → Reachable (append_right s v)
  | popL : ∀ {s s' : DLLState} {r : Option Int}, Reachable s →
      pop_left s = some (r, s') → Reachable s'
  | popR : ∀ {s s' : DLLState} {r : Option Int}, Reachable s →
      pop_right s = some (r, s') → Reachable s'

theorem writeNode_same (h : Nat → Node) (i : Nat) (nd : Node) :
    writeNode h i nd i = nd := by
  simp [writeNode]

theorem writeNode_other (h : Nat → Node) (i j : Nat) (nd : Node) (hj : j ≠ i) :
    writeNode h i nd j = h j := by
  simp [writeNode, hj]

theorem flipNode_flipNode (nd : Node) : flipNode (flipNode nd) = nd := rfl

theorem flipHeap_flipHeap (h : Nat → Node) : flipHeap (flipHeap h) = h := rfl

theorem mirror_mirror (s : DLLState) : mirror (mirror s) = s := rfl

theorem flipHeap_writeNode (h : Nat → Node) (i : Nat) (nd : Node) :
    flipHeap (writeNode h i nd) = writeNode (flipHeap h) i (flipNode nd) := by
  funext j
  by_cases hj : j = i <;> simp [flipHeap, writeNode, hj]

theorem flipHeap_setNext (h : Nat → Node) (i : Nat) (p : Option Nat) :
    flipHeap (setNext h i p) = setPrev (flipHeap h) i p := by
  rw [setNext, flipHeap_writeNode]
  rfl

theorem flipHeap_setPrev (h : Nat → Node) (i : Nat) (p : Option Nat) :
    flipHeap (setPrev h i p) = setNext (flipHeap h) i p := by
  rw [setPrev, flipHeap_writeNode]
  rfl

theorem frontPtr_append (xs ys : List Nat) (n : Option Nat) :
    frontPtr (xs ++ ys) n = frontPtr xs (frontPtr ys n) := by
  cases xs <;> rfl

theorem backPtr_cons (x : Nat) (xs : List Nat) (p : Option Nat) :
    backPtr (x :: xs) p = backPtr xs (some x) := by
  cases xs with
  | nil => rfl
  | cons y ys =>
      rcases hl : (y :: ys).getLast? with _ | a
      · exact absurd hl (by simp)
      · simp [backPtr, List.getLast?_cons_cons, hl]

theorem backPtr_reverse (xs : List Nat) (n : Option Nat) :
    backPtr xs.reverse n = frontPtr xs n := by
  cases xs with
  | nil => rfl
  | cons x xs => simp [backPtr, frontPtr, List.getLast?_reverse]

theorem seg_append (h : Nat → Node) (xs ys : List Nat) (p n : Option Nat) :
    seg h p (xs ++ ys) n ↔ seg h p xs (frontPtr ys n) ∧ seg h (backPtr xs p) ys n := by
  induction xs generalizing p with
  | nil => simp [seg, backPtr]
  | cons x xs ih =>
      simp only [List.cons_append, List.append_eq, seg, frontPtr_append, backPtr_cons,
        ih, and_assoc]

theorem seg_congr (h h2 : Nat → Node) (p n : Option Nat) (ids : List Nat)
    (he : ∀ i ∈ ids, h2 i = h i) : seg h2 p ids n ↔ seg h p ids n := by
  induction ids generalizing p with
  | nil => simp [seg]
  | cons x xs ih =>
      simp only [seg]
      rw [he x (List.mem_cons_self x xs),
        ih (some x) (fun i hi => he i (List.mem_cons_of_mem x hi))]

theorem seg_flip (h : Nat → Node) (ids : List Nat) (p n : Option Nat) :
    seg h p ids n ↔ seg (flipHeap h) n ids.reverse p := by
  induction ids generalizing p with
  | nil => simp [seg]
  | cons x xs ih =>
      rw [List.reverse_cons, seg_append, backPtr_reverse]
      simp only [seg, frontPtr, flipHeap, flipNode, ih]
      tauto

theorem frontPtr_none (xs : List Nat) : frontPtr xs none = xs.head? := by
  cases xs <;> rfl

theorem walkFwd_seg (h : Nat → Node) (ids : List Nat) (p n : Option Nat)
    (hs : seg h p ids n) (k : Nat) (hk : k < ids.length) :
    walkFwd h ids.head? k = some (some ids[k]) := by
  induction ids generalizing p k with
  | nil => simp at hk
  | cons x xs ih =>
      cases k with
      | zero => rfl
      | succ k =>
          obtain ⟨-, hnext, hrest⟩ := hs
          cases xs with
          | nil => simp at hk
          | cons y ys =>
              simp only [List.head?_cons, walkFwd, hnext, frontPtr, List.getElem_cons_succ]
              exact ih (some x) hrest k (by simpa using hk)

theorem follow_len_seg (h : Nat → Node) (ids : List Nat) (p : Option Nat)
    (hs : seg h p ids none) : follow h ids.head? ids.length = none := by
  induction ids generalizing p with
  | nil => rfl
  | cons x xs ih =>
      obtain ⟨-, hnext, hrest⟩ := hs
      simp only [List.head?_cons, List.length_cons, follow, hnext, frontPtr_none]
      exact ih (some x) hrest

theorem follow_mem_seg (h : Nat → Node) (ids : List Nat) (p : Option Nat)
    (hs : seg h p ids none) (k j : Nat) (hf : follow h ids.head? k = some j) :
    j ∈ ids := by
  induction ids generalizing p k with
  | nil => cases k <;> simp [follow] at hf
  | cons x xs ih =>
      cases k with
      | zero =>
          simp only [List.head?_cons, follow] at hf
          obtain rfl : x = j := by injection hf
          exact List.mem_cons_self x xs
      | succ k =>
          obtain ⟨-, hnext, hrest⟩ := hs
          simp only [List.head?_cons, follow, hnext, frontPtr_none] at hf
          exact List.mem_cons_of_mem x (ih (some x) hrest k hf)

theorem seg_next_mem (h : Nat → Node) (ids : List Nat) (p : Option Nat)
    (hs : seg h p ids none) (j m : Nat) (hj : j ∈ ids)
    (hm : (h j).next = some m) : m ∈ ids := by
  induction ids generalizing p with
  | nil => simp at hj
  | cons x xs ih =>
      obtain ⟨-, hnext, hrest⟩ := hs
      rcases List.mem_cons.mp hj with hxj | hj2
      · subst hxj
        cases xs with
        | nil => rw [hnext] at hm; exact absurd hm (by simp [frontPtr])
        | cons y ys =>
            rw [hnext] at hm
            have hym : y = m := by injection hm
            subst hym
            exact List.mem_cons_of_mem j (List.mem_cons_self y ys)
      · exact List.mem_cons_of_mem x (ih (some x) hrest hj2)

theorem seg_prev_mem_or (h : Nat → Node) (ids : List Nat) (p n : Option Nat)
    (hs : seg h p ids n) (j m : Nat) (hj : j ∈ ids)
    (hm : (h j).prev = some m) : m ∈ ids ∨ some m = p := by
  induction ids generalizing p with
  | nil => simp at hj
  | cons x xs ih =>
      obtain ⟨hprev, -, hrest⟩ := hs
      rcases List.mem_cons.mp hj with hxj | hj2
      · subst hxj
        exact Or.inr (hm.symm.trans hprev)
      · rcases ih (some x) hrest hj2 with hin | hx
        · exact Or.inl (List.mem_cons_of_mem x hin)
        · have hmx : m = x := by injection hx
          subst hmx
          exact Or.inl (List.mem_cons_self m xs)

theorem iterFrom_seg (h : Nat → Node) (ids : List Nat) (p : Option Nat)
    (hs : seg h p ids none) (fuel : Nat) (hf : ids.length ≤ fuel) :
    iterFrom h ids.head? fuel = absList h ids := by
  induction ids generalizing p fuel with
  | nil => cases fuel <;> rfl
  | cons x xs ih =>
      obtain ⟨-, hnext, hrest⟩ := hs
      cases fuel with
      | zero => simp at hf
      | succ fuel =>
          simp only [List.head?_cons, iterFrom, hnext, frontPtr_none, absList, List.map_cons]
          exact congrArg _ (ih (some x) hrest fuel (by simpa using hf))

theorem walkBwd_eq (h : Nat → Node) (cur : Option Nat) (k : Nat) :
    walkBwd h cur k = walkFwd (flipHeap h) cur k := by
  induction k generalizing cur with
  | zero => cases cur <;> rfl
  | succ k ih =>
      cases cur with
      | none => rfl
      | some i => exact ih (h i).prev

theorem length_le_of_nodup_bound (ids : List Nat) (n : Nat) (hd : ids.Nodup)
    (hb : ∀ i ∈ ids, i < n) : ids.length ≤ n := by
  have h1 : ids.toFinset.card = ids.length := List.toFinset_card_of_nodup hd
  have h2 : ids.toFinset ⊆ Finset.range n := by
    intro i hi
    simp only [List.mem_toFinset] at hi
    exact Finset.mem_range.mpr (hb i hi)
  have h3 := Finset.card_le_card h2
  rw [h1, Finset.card_range] at h3
  exact h3

theorem absList_congr (h h2 : Nat → Node) (ids : List Nat)
    (he : ∀ i ∈ ids, (h2 i).value = (h i).value) : absList h2 ids = absList h ids := by
  unfold absList
  induction ids with
  | nil => rfl
  | cons x xs ih =>
      simp only [List.map_cons, he x (List.mem_cons_self x xs)]
      exact congrArg _ (ih (fun i hi => he i (List.mem_cons_of_mem x hi)))

theorem absList_flipHeap (h : Nat → Node) (ids : List Nat) :
    absList (flipHeap h) ids = absList h ids :=
  absList_congr h (flipHeap h) ids (fun _ _ => rfl)

theorem append_left_none (s : DLLState) (v : Int) (hh : s.head = none) :
    append_left s v =
      { heap := writeNode s.heap s.fresh { value := v, next := none, prev := none },
        fresh := s.fresh + 1, head := some s.fresh, tail := some s.fresh,
        length := s.length + 1 } := by
  simp [append_left, hh]

theorem append_left_some (s : DLLState) (v : Int) (hd : Nat) (hh : s.head = some hd) :
    append_left s v =
      { heap := setPrev (setNext (writeNode s.heap s.fresh
            { value := v, next := none, prev := none }) s.fresh (some hd)) hd (some s.fresh),
        fresh := s.fresh + 1, head := some s.fresh, tail := s.tail,
        length := s.length + 1 } := by
  simp [append_left, hh]

theorem rep_empty : Represents emptyDLL [] := by
  refine ⟨trivial, rfl, rfl, rfl, ?_, List.nodup_nil⟩
  intro i hi
  exact absurd hi (List.not_mem_nil i)

theorem rep_append_left (s : DLLState) (ids : List Nat) (v : Int)
    (hr : Represents s ids) : Represents (append_left s v) (s.fresh :: ids) := by
  obtain ⟨hseg, hhead, htail, hlen, hbound, hnodup⟩ := hr
  have hfresh : s.fresh ∉ ids := fun hmem => lt_irrefl s.fresh (hbound s.fresh hmem)
  cases hh : s.head with
  | none =>
      have hids : ids = [] := by
        cases ids with
        | nil => rfl
        | cons a as => rw [hh] at hhead; exact absurd hhead (by simp)
      subst hids
      rw [append_left_none s v hh]
      refine ⟨⟨?_, ?_, trivial⟩, rfl, by simp, ?_, ?_, by simp⟩
      · dsimp only
        rw [writeNode_same]
      · dsimp only
        rw [writeNode_same]
        rfl
      · dsimp only
        simp only [List.length_nil, Nat.cast_zero] at hlen
        simp [hlen]
      · dsimp only
        intro i hi
        simp only [List.mem_singleton] at hi
        omega
  | some hd =>
      obtain ⟨rest, hids⟩ : ∃ rest, ids = hd :: rest := by
        cases ids with
        | nil => rw [hh] at hhead; exact absurd hhead (by simp)
        | cons a as =>
            rw [hh] at hhead
            simp only [List.head?_cons, Option.some.injEq] at hhead
            exact ⟨as, by rw [hhead]⟩
      subst hids
      have hhdf : hd ≠ s.fresh := by
        intro hx
        exact hfresh (hx ▸ List.mem_cons_self hd rest)
      obtain ⟨hprev0, hnext0, hrest0⟩ := hseg
      have hf3 : (setPrev (setNext (writeNode s.heap s.fresh
          { value := v, next := none, prev := none }) s.fresh (some hd)) hd (some s.fresh))
          s.fresh = { value := v, next := some hd, prev := none } := by
        rw [setPrev, writeNode_other _ _ _ _ (Ne.symm hhdf), setNext, writeNode_same,
          writeNode_same]
      have hhd3 : (setPrev (setNext (writeNode s.heap s.fresh
          { value := v, next := none, prev := none }) s.fresh (some hd)) hd (some s.fresh))
          hd = { s.heap hd with prev := some s.fresh } := by
        rw [setPrev, writeNode_same, setNext, writeNode_other _ _ _ _ hhdf,
          writeNode_other _ _ _ _ hhdf]
      have hother : ∀ j ∈ rest, (setPrev (setNext (writeNode s.heap s.fresh
          { value := v, next := none, prev := none }) s.fresh (some hd)) hd (some s.fresh))
          j = s.heap j := by
        intro j hj
        have hjhd : j ≠ hd := by
          intro hx
          subst hx
          exact (List.nodup_cons.mp hnodup).1 hj
        have hjf : j ≠ s.fresh := by
          intro hx
          exact hfresh (hx ▸ List.mem_cons_of_mem hd hj)
        rw [setPrev, writeNode_other _ _ _ _ hjhd, setNext,
          writeNode_other _ _ _ _ hjf, writeNode_other _ _ _ _ hjf]
      rw [append_left_some s v hd hh]
      refine ⟨?_, rfl, ?_, ?_, ?_, ?_⟩
      · dsimp only
        simp only [seg, frontPtr]
        refine ⟨?_, ?_, ?_, ?_, ?_⟩
        · rw [hf3]
        · rw [hf3]
        · rw [hhd3]
        · rw [hhd3]
          exact hnext0
        · exact (seg_congr s.heap _ (some hd) none rest hother).mpr hrest0
      · dsimp only
        rw [htail]
        simp
      · dsimp only
        simp only [List.length_cons] at hlen
        simp only [List.length_cons, hlen]
        push_cast
        ring
      · dsimp only
        intro i hi
        rcases List.mem_cons.mp hi with hif | hin
        · omega
        · exact Nat.lt_succ_of_lt (hbound i hin)
      · exact List.nodup_cons.mpr ⟨hfresh, hnodup⟩

theorem rep_mirror (s : DLLState) (ids : List Nat) (hr : Represents s ids) :
    Represents (mirror s) ids.reverse := by
  obtain ⟨hseg, hhead, htail, hlen, hbound, hnodup⟩ := hr
  refine ⟨?_, ?_, ?_, ?_, ?_, ?_⟩
  · exact (seg_flip s.heap ids none none).mp hseg
  · dsimp only [mirror]
    rw [htail, List.head?_reverse]
  · dsimp only [mirror]
    rw [hhead, List.getLast?_reverse]
  · dsimp only [mirror]
    rw [hlen]
    simp
  · dsimp only [mirror]
    intro i hi
    exact hbound i (List.mem_reverse.mp hi)
  · exact List.nodup_reverse.mpr hnodup

theorem setPrev_value (h : Nat → Node) (i : Nat) (p : Option Nat) (j : Nat) :
    (setPrev h i p j).value = (h j).value := by
  by_cases hj : j = i
  · subst hj
    rw [setPrev, writeNode_same]
  · rw [setPrev, writeNode_other _ _ _ _ hj]

theorem setNext_value (h : Nat → Node) (i : Nat) (p : Option Nat) (j : Nat) :
    (setNext h i p j).value = (h j).value := by
  by_cases hj : j = i
  · subst hj
    rw [setNext, writeNode_same]
  · rw [setNext, writeNode_other _ _ _ _ hj]

theorem pop_left_rep (s : DLLState) (ids : List Nat) (hr : Represents s ids) :
    ∃ s2, pop_left s = some (ids.head?.map (fun i => (s.heap i).value), s2) ∧
      Represents s2 ids.tail ∧ (∀ j, (s2.heap j).value = (s.heap j).value) ∧
      s2.fresh = s.fresh := by
  obtain ⟨hseg, hhead, htail, hlen, hbound, hnodup⟩ := hr
  cases ids with
  | nil =>
      refine ⟨s, ?_, ⟨hseg, hhead, htail, hlen, hbound, hnodup⟩, fun j => rfl, rfl⟩
      have hh : s.head = none := hhead
      simp [pop_left, hh]
  | cons hd rest =>
      have hh : s.head = some hd := hhead
      cases rest with
      | nil =>
          have ht : s.tail = some hd := htail
          have hcond : s.head = s.tail := by rw [hh, ht]
          refine ⟨{ s with head := none, tail := none, length := 0 }, ?_, ?_, fun j => rfl, rfl⟩
          · simp [pop_left, hh, ht]
          · exact ⟨trivial, rfl, rfl, rfl, fun i hi => absurd hi (List.not_mem_nil i),
              List.nodup_nil⟩
      | cons b rest2 =>
          obtain ⟨hprev0, hnext0, hprevb, hnextb, hrest2⟩ := hseg
          have hbmem : b ∈ hd :: b :: rest2 :=
            List.mem_cons_of_mem hd (List.mem_cons_self b rest2)
          have hhdnotin : hd ∉ b :: rest2 := (List.nodup_cons.mp hnodup).1
          have hcond : ¬ s.head = s.tail := by
            rw [hh, htail]
            intro hx
            rcases hl : (b :: rest2).getLast? with _ | a
            · exact absurd hl (by simp)
            · rw [List.getLast?_cons_cons, hl] at hx
              have hda : hd = a := by injection hx
              subst hda
              obtain ⟨hne, hx2⟩ := List.mem_getLast?_eq_getLast (Option.mem_def.mpr hl)
              exact hhdnotin (hx2 ▸ List.getLast_mem hne)
          have hnx : (s.heap hd).next = some b := by
            rw [hnext0]
            rfl
          have hcond2 : ¬ some hd = s.tail := by
            rw [← hh]
            exact hcond
          refine ⟨DLLState.mk (setPrev s.heap b none) s.fresh (some b) s.tail
            (s.length - 1), ?_, ?_, fun j => setPrev_value s.heap b none j, rfl⟩
          · simp [pop_left, hh, hcond2, hnx]
          · have hbnotin : b ∉ rest2 := by
              have := (List.nodup_cons.mp ((List.nodup_cons.mp hnodup).2)).1
              exact this
            refine ⟨?_, rfl, ?_, ?_, ?_, ?_⟩
            · dsimp only
              refine ⟨?_, ?_, ?_⟩
              · rw [setPrev, writeNode_same]
              · rw [setPrev, writeNode_same]
                exact hnextb
              · refine (seg_congr s.heap _ (some b) none rest2 ?_).mpr hrest2
                intro j hj
                have hjb : j ≠ b := fun hx => hbnotin (hx ▸ hj)
                rw [setPrev, writeNode_other _ _ _ _ hjb]
            · dsimp only
              rw [htail, List.getLast?_cons_cons]
              rfl
            · dsimp only
              simp only [List.length_cons] at hlen
              simp only [List.tail_cons, List.length_cons, hlen]
              push_cast
              ring
            · dsimp only
              intro i hi
              exact hbound i (List.mem_cons_of_mem hd hi)
            · exact (List.nodup_cons.mp hnodup).2

theorem append_right_eq_mirror (s : DLLState) (v : Int) :
    append_right s v = mirror (append_left (mirror s) v) := by
  cases ht : s.tail with
  | none =>
      have hh : (mirror s).head = none := ht
      rw [append_left_none (mirror s) v hh]
      simp only [append_right, ht, mirror, flipHeap_writeNode, flipHeap_flipHeap]
      rfl
  | some tl =>
      have hh : (mirror s).head = some tl := ht
      rw [append_left_some (mirror s) v tl hh]
      simp only [append_right, ht, mirror, flipHeap_setPrev, flipHeap_setNext,
        flipHeap_writeNode, flipHeap_flipHeap]
      rfl

theorem pop_right_eq_mirror (s : DLLState) :
    pop_right s = Option.map (fun r => (r.1, mirror r.2)) (pop_left (mirror s)) := by
  cases ht : s.tail with
  | none =>
      have hh : (mirror s).head = none := ht
      simp only [pop_right, ht, pop_left, hh]
      rfl
  | some tl =>
      have hh : (mirror s).head = some tl := ht
      have hmt : (mirror s).tail = s.head := rfl
      by_cases hc : s.head = s.tail
      · have hcx : s.head = some tl := by rw [hc, ht]
        simp only [pop_right, ht, pop_left, hh, hmt, hcx, eq_self_iff_true, if_true]
        rfl
      · have hcx : ¬ s.head = some tl := by
          rw [← ht]
          exact hc
        have hcx2 : ¬ some tl = s.head := fun hx => hcx hx.symm
        cases hp : (s.heap tl).prev with
        | none =>
            have hpx : ((mirror s).heap tl).next = none := hp
            simp only [pop_right, ht, pop_left, hh, hmt, hcx, hcx2, hp, hpx,
              iff_false_intro hcx, iff_false_intro hcx2, if_false]
            rfl
        | some tl2 =>
            have hpx : ((mirror s).heap tl).next = some tl2 := hp
            simp only [pop_right, ht, pop_left, hh, hmt, hcx, hcx2, hp, hpx,
              iff_false_intro hcx, iff_false_intro hcx2, if_false]
            simp only [Option.map_some', mirror, flipHeap_setPrev, flipHeap_flipHeap]
            rfl

theorem append_left_value (s : DLLState) (v : Int) (j : Nat) :
    ((append_left s v).heap j).value =
      (writeNode s.heap s.fresh { value := v, next := none, prev := none } j).value := by
  cases hh : s.head with
  | none => rw [append_left_none s v hh]
  | some hd =>
      rw [append_left_some s v hd hh]
      dsimp only
      rw [setPrev_value, setNext_value]

theorem models_empty : Models emptyDLL [] := ⟨[], rep_empty, rfl⟩

theorem models_append_left (s : DLLState) (l : List Int) (v : Int) (hm : Models s l) :
    Models (append_left s v) (v :: l) := by
  obtain ⟨ids, hr, habs⟩ := hm
  refine ⟨s.fresh :: ids, rep_append_left s ids v hr, ?_⟩
  simp only [absList, List.map_cons]
  have h1 : ((append_left s v).heap s.fresh).value = v := by
    rw [append_left_value, writeNode_same]
  rw [h1]
  have h2 : List.map (fun i => ((append_left s v).heap i).value) ids = absList s.heap ids := by
    refine absList_congr s.heap (append_left s v).heap ids ?_
    intro i hi
    have hif : i ≠ s.fresh := Nat.ne_of_lt (hr.bound i hi)
    rw [append_left_value, writeNode_other _ _ _ _ hif]
  rw [h2, habs]

theorem models_mirror (s : DLLState) (l : List Int) (hm : Models s l) :
    Models (mirror s) l.reverse := by
  obtain ⟨ids, hr, habs⟩ := hm
  refine ⟨ids.reverse, rep_mirror s ids hr, ?_⟩
  have h1 : absList (mirror s).heap ids.reverse = absList s.heap ids.reverse :=
    absList_flipHeap s.heap ids.reverse
  rw [h1, absList, List.map_reverse, ← absList, habs]

theorem models_append_right (s : DLLState) (l : List Int) (v : Int) (hm : Models s l) :
    Models (append_right s v) (l ++ [v]) := by
  have h1 : Models (append_left (mirror s) v) (v :: l.reverse) :=
    models_append_left (mirror s) l.reverse v (models_mirror s l hm)
  have h2 : Models (mirror (append_left (mirror s) v)) (v :: l.reverse).reverse :=
    models_mirror _ _ h1
  rw [append_right_eq_mirror]
  simpa using h2

theorem models_pop_left (s : DLLState) (l : List Int) (hm : Models s l) :
    ∃ s2, pop_left s = some (l.head?, s2) ∧ Models s2 l.tail := by
  obtain ⟨ids, hr, habs⟩ := hm
  obtain ⟨s2, hpop, hrep2, hval, hfresh⟩ := pop_left_rep s ids hr
  refine ⟨s2, ?_, ⟨ids.tail, hrep2, ?_⟩⟩
  · rw [hpop]
    have hv : ids.head?.map (fun i => (s.heap i).value) = l.head? := by
      rw [← habs]
      cases ids <;> rfl
    rw [hv]
  · rw [← habs]
    cases ids with
    | nil => rfl
    | cons a as =>
        simp only [List.tail_cons, absList, List.map_cons]
        exact absList_congr s.heap s2.heap as (fun i _ => hval i)

theorem reverse_tail_reverse {α : Type} (l : List α) : l.reverse.tail.reverse = l.dropLast := by
  induction l using List.reverseRecOn with
  | nil => rfl
  | append_singleton xs a ih => simp

theorem models_pop_right (s : DLLState) (l : List Int) (hm : Models s l) :
    ∃ s2, pop_right s = some (l.getLast?, s2) ∧ Models s2 l.dropLast := by
  obtain ⟨s2, hpop, hm2⟩ := models_pop_left (mirror s) l.reverse (models_mirror s l hm)
  refine ⟨mirror s2, ?_, ?_⟩
  · rw [pop_right_eq_mirror, hpop, Option.map_some', List.head?_reverse]
  · have h3 := models_mirror s2 l.reverse.tail hm2
    rw [reverse_tail_reverse] at h3
    exact h3

theorem models_toList (s : DLLState) (l : List Int) (hm : Models s l) : toList s = l := by
  obtain ⟨ids, hr, habs⟩ := hm
  have hfuel : ids.length ≤ s.fresh := length_le_of_nodup_bound ids s.fresh hr.nodup hr.bound
  have h1 := iterFrom_seg s.heap ids none hr.seg_ok s.fresh hfuel
  rw [toList, hr.head_ok, h1, habs]

theorem models_length (s : DLLState) (l : List Int) (hm : Models s l) :
    s.length = (l.length : Int) := by
  obtain ⟨ids, hr, habs⟩ := hm
  rw [hr.len_ok, ← habs, absList, List.length_map]

theorem reachable_models (s : DLLState) (hs : Reachable s) : ∃ l, Models s l := by
  induction hs with
  | empty => exact ⟨[], models_empty⟩
  | appL v hs ih =>
      obtain ⟨l, hm⟩ := ih
      exact ⟨v :: l, models_append_left _ _ v hm⟩
  | appR v hs ih =>
      obtain ⟨l, hm⟩ := ih
      exact ⟨l ++ [v], models_append_right _ _ v hm⟩
  | popL hs hp ih =>
      obtain ⟨l, hm⟩ := ih
      obtain ⟨s2, hpop, hm2⟩ := models_pop_left _ _ hm
      have h1 := hp.symm.trans hpop
      injection h1 with h1
      injection h1 with hv hs2
      exact ⟨l.tail, by rw [hs2]; exact hm2⟩
  | popR hs hp ih =>
      obtain ⟨l, hm⟩ := ih
      obtain ⟨s2, hpop, hm2⟩ := models_pop_right _ _ hm
      have h1 := hp.symm.trans hpop
      injection h1 with h1
      injection h1 with hv hs2
      exact ⟨l.dropLast, by rw [hs2]; exact hm2⟩

theorem get_unfold (s : DLLState) (index : Int) :
    get s index =
      if index < 0 ∨ index ≥ s.length then GetResult.indexError "Index out of range"
      else if index < Int.fdiv s.length 2 then
        match walkFwd s.heap s.head index.toNat with
        | none => GetResult.assertFail
        | some none => GetResult.assertFail
        | some (some i) => GetResult.ok (s.heap i).value
      else
        match walkBwd s.heap s.tail (s.length - index - 1).toNat with
        | none => GetResult.assertFail
        | some none => GetResult.assertFail
        | some (some i) => GetResult.ok (s.heap i).value := rfl

theorem walkFwd_rep (s : DLLState) (ids : List Nat) (hr : Represents s ids)
    (k : Nat) (hk : k < ids.length) :
    walkFwd s.heap s.head k = some ids[k]? := by
  rw [hr.head_ok, List.getElem?_eq_getElem hk]
  exact walkFwd_seg s.heap ids none none hr.seg_ok k hk

theorem walkBwd_rep (s : DLLState) (ids : List Nat) (hr : Represents s ids)
    (k : Nat) (hk : k < ids.length) :
    walkBwd s.heap s.tail k = some ids[ids.length - 1 - k]? := by
  have hk2 : k < ids.reverse.length := by simpa using hk
  have hk3 : ids.length - 1 - k < ids.length := by omega
  have h1 := walkFwd_rep (mirror s) ids.reverse (rep_mirror s ids hr) k hk2
  rw [List.getElem?_eq_getElem hk2, List.getElem_reverse] at h1
  rw [List.getElem?_eq_getElem hk3]
  rw [walkBwd_eq]
  exact h1

theorem rep_get (s : DLLState) (ids : List Nat) (hr : Represents s ids)
    (i : Int) (h0 : 0 ≤ i) (hl : i < s.length) :
    ∃ j : Nat, ids[i.toNat]? = some j ∧
      walkFwd s.heap s.head i.toNat = some (some j) ∧
      walkBwd s.heap s.tail (s.length - i - 1).toNat = some (some j) ∧
      get s i = GetResult.ok ((s.heap j).value) := by
  have hlen : s.length = (ids.length : Int) := hr.len_ok
  have hik : i = (i.toNat : Int) := (Int.toNat_of_nonneg h0).symm
  have hkn : i.toNat < ids.length := by
    rw [hlen, hik] at hl
    exact_mod_cast hl
  have hw1 := walkFwd_rep s ids hr i.toNat hkn
  have hsteps : (s.length - i - 1).toNat = ids.length - 1 - i.toNat := by
    rw [hlen, hik]
    omega
  have hkn2 : ids.length - 1 - i.toNat < ids.length := by omega
  have hw2 := walkBwd_rep s ids hr (ids.length - 1 - i.toNat) hkn2
  have hidx : ids.length - 1 - (ids.length - 1 - i.toNat) = i.toNat := by omega
  rw [hidx] at hw2
  have hj : ids[i.toNat]? = some ids[i.toNat] := List.getElem?_eq_getElem hkn
  rw [hj] at hw1 hw2
  have hcond : ¬ (i < 0 ∨ i ≥ s.length) := by
    push_neg
    exact ⟨h0, hl⟩
  refine ⟨ids[i.toNat], hj, hw1, by rw [hsteps]; exact hw2, ?_⟩
  rw [get_unfold, if_neg hcond]
  by_cases hhalf : i < Int.fdiv s.length 2
  · rw [if_pos hhalf, hw1]
  · rw [if_neg hhalf, hsteps, hw2]

theorem popN_left_models (s : DLLState) (l : List Int) (hm : Models s l) (n : Nat)
    (hn : n ≤ l.length) :
    ∃ s2, popN_left s n = some ((l.take n).map some, s2) ∧ Models s2 (l.drop n) := by
  induction n generalizing s l with
  | zero => exact ⟨s, rfl, by simpa using hm⟩
  | succ n ih =>
      cases l with
      | nil => exact absurd hn (by simp)
      | cons x xs =>
          obtain ⟨s2, hpop, hm2⟩ := models_pop_left s (x :: xs) hm
          obtain ⟨s3, hpn, hm3⟩ := ih s2 xs hm2 (by simpa using hn)
          refine ⟨s3, ?_, by simpa using hm3⟩
          simp only [popN_left, hpop, List.head?_cons, hpn, List.take_succ_cons,
            List.map_cons]

theorem popN_right_models (s : DLLState) (l : List Int) (hm : Models s l) (n : Nat)
    (hn : n ≤ l.length) :
    ∃ s2, popN_right s n = some ((l.reverse.take n).map some, s2) ∧
      Models s2 (l.take (l.length - n)) := by
  induction n generalizing s l with
  | zero => exact ⟨s, rfl, by simpa using hm⟩
  | succ n ih =>
      rcases List.eq_nil_or_concat l with rfl | ⟨ys, a, rfl⟩
      · exact absurd hn (by simp)
      · simp only [List.concat_eq_append] at hm hn ⊢
        obtain ⟨s2, hpop, hm2⟩ := models_pop_right s (ys ++ [a]) hm
        rw [List.getLast?_concat] at hpop
        rw [List.dropLast_concat] at hm2
        have hny : n ≤ ys.length := by
          have := hn
          simp only [List.length_append, List.length_singleton] at this
          omega
        obtain ⟨s3, hpn, hm3⟩ := ih s2 ys hm2 hny
        refine ⟨s3, ?_, ?_⟩
        · simp only [popN_right, hpop, hpn, List.reverse_append, List.reverse_singleton,
            List.singleton_append, List.take_succ_cons, List.map_cons]
        · have harith : (ys ++ [a]).length - (n + 1) = ys.length - n := by
            simp only [List.length_append, List.length_singleton]
            omega
          rw [harith, List.take_append_of_le_length (by omega)]
          exact hm3

theorem models_appendAllLeft (s : DLLState) (l : List Int) (vs : List Int)
    (hm : Models s l) : Models (appendAllLeft s vs) (vs.reverse ++ l) := by
  induction vs generalizing s l with
  | nil => simpa using hm
  | cons v vs ih =>
      have h1 := models_append_left s l v hm
      have h2 := ih (append_left s v) (v :: l) h1
      simpa [appendAllLeft, List.reverse_cons, List.append_assoc] using h2

theorem models_appendAllRight (s : DLLState) (l : List Int) (vs : List Int)
    (hm : Models s l) : Models (appendAllRight s vs) (l ++ vs) := by
  induction vs generalizing s l with
  | nil => simpa using hm
  | cons v vs ih =>
      have h1 := models_append_right s l v hm
      have h2 := ih (append_right s v) (l ++ [v]) h1
      simpa [appendAllRight, List.append_assoc] using h2

theorem popN_left_empty (s : DLLState) (hh : s.head = none) (n : Nat) :
    popN_left s n = some (List.replicate n none, s) := by
  induction n with
  | zero => rfl
  | succ n ih => simp [popN_left, pop_left, hh, ih, List.replicate_succ]

theorem popN_right_empty (s : DLLState) (ht : s.tail = none) (n : Nat) :
    popN_right s n = some (List.replicate n none, s) := by
  induction n with
  | zero => rfl
  | succ n ih => simp [popN_right, pop_right, ht, ih, List.replicate_succ]

theorem erase_append_left (s : DLLState) (v : Int) :
    LL.append_left (erase s) v = erase (append_left s v) := by
  have hhd : (erase s).head = s.head := rfl
  cases hh : s.head with
  | none =>
      rw [append_left_none s v hh]
      simp only [LL.append_left, hhd, hh, erase]
  | some hd =>
      rw [append_left_some s v hd hh]
      simp only [LL.append_left, hhd, hh, erase]

theorem erase_append_right (s : DLLState) (v : Int) :
    LL.append_right (erase s) v = erase (append_right s v) := by
  have htl : (erase s).tail = s.tail := rfl
  cases ht : s.tail with
  | none => simp only [LL.append_right, append_right, htl, ht, erase]
  | some tl => simp only [LL.append_right, append_right, htl, ht, erase]

theorem erase_pop_left (s : DLLState) :
    LL.pop_left (erase s) = Option.map (fun r => (r.1, erase r.2)) (pop_left s) := by
  have hhd : (erase s).head = s.head := rfl
  have htl : (erase s).tail = s.tail := rfl
  have hhp : (erase s).heap = s.heap := rfl
  cases hh : s.head with
  | none =>
      simp only [LL.pop_left, pop_left, hhd, hh]
      rfl
  | some hd =>
      by_cases hc : some hd = s.tail
      · have hc2 : s.tail = some hd := hc.symm
        simp only [LL.pop_left, pop_left, hhd, htl, hhp, hh, hc2, eq_self_iff_true, if_true]
        rfl
      · cases hnx : (s.heap hd).next with
        | none =>
            simp only [LL.pop_left, pop_left, hhd, htl, hhp, hh, hnx,
              iff_false_intro hc, if_false]
            rfl
        | some hd2 =>
            simp only [LL.pop_left, pop_left, hhd, htl, hhp, hh, hnx,
              iff_false_intro hc, if_false]
            rfl

theorem erase_pop_right (s : DLLState) :
    LL.pop_right (erase s) = Option.map (fun r => (r.1, erase r.2)) (pop_right s) := by
  have hhd : (erase s).head = s.head := rfl
  have htl : (erase s).tail = s.tail := rfl
  have hhp : (erase s).heap = s.heap := rfl
  cases ht : s.tail with
  | none =>
      simp only [LL.pop_right, pop_right, htl, ht]
      rfl
  | some tl =>
      by_cases hc : s.head = some tl
      · simp only [LL.pop_right, pop_right, hhd, htl, hhp, ht, hc, eq_self_iff_true, if_true]
        rfl
      · cases hpv : (s.heap tl).prev with
        | none =>
            simp only [LL.pop_right, pop_right, hhd, htl, hhp, ht, hpv,
              iff_false_intro hc, if_false]
            rfl
        | some tl2 =>
            simp only [LL.pop_right, pop_right, hhd, htl, hhp, ht, hpv,
              iff_false_intro hc, if_false]
            rfl

theorem runLL_erase (ops : List Op) : ∀ s : DLLState,
    runLL (erase s) ops = Option.map (fun q => (erase q.1, q.2)) (runDLL s ops) := by
  induction ops with
  | nil => intro s; rfl
  | cons op ops ih =>
      intro s
      cases op with
      | appL v =>
          show runLL (LL.append_left (erase s) v) ops = _
          rw [erase_append_left, ih (append_left s v)]
          rfl
      | appR v =>
          show runLL (LL.append_right (erase s) v) ops = _
          rw [erase_append_right, ih (append_right s v)]
          rfl
      | popL =>
          cases hp : pop_left s with
          | none =>
              have h1 : LL.pop_left (erase s) = none := by
                rw [erase_pop_left, hp]
                rfl
              simp only [runLL, runDLL, h1, hp]
              rfl
          | some rs =>
              obtain ⟨r, s2⟩ := rs
              have h1 : LL.pop_left (erase s) = some (r, erase s2) := by
                rw [erase_pop_left, hp]
                rfl
              simp only [runLL, runDLL, h1, hp, ih s2]
              cases runDLL s2 ops <;> rfl
      | popR =>
          cases hp : pop_right s with
          | none =>
              have h1 : LL.pop_right (erase s) = none := by
                rw [erase_pop_right, hp]
                rfl
              simp only [runLL, runDLL, h1, hp]
              rfl
          | some rs =>
              obtain ⟨r, s2⟩ := rs
              have h1 : LL.pop_right (erase s) = some (r, erase s2) := by
                rw [erase_pop_right, hp]
                rfl
              simp only [runLL, runDLL, h1, hp, ih s2]
              cases runDLL s2 ops <;> rfl

theorem pop_right_rep (s : DLLState) (ids : List Nat) (hr : Represents s ids) :
    ∃ s2, pop_right s = some (ids.getLast?.map (fun i => (s.heap i).value), s2) ∧
      Represents s2 ids.dropLast := by
  obtain ⟨s2', hpop', hrep2', hval', hfresh'⟩ :=
    pop_left_rep (mirror s) ids.reverse (rep_mirror s ids hr)
  refine ⟨mirror s2', ?_, ?_⟩
  · rw [pop_right_eq_mirror, hpop', Option.map_some', List.head?_reverse]
    rfl
  · have h2 := rep_mirror s2' ids.reverse.tail hrep2'
    rw [reverse_tail_reverse] at h2
    exact h2

theorem pop_left_detach (s : DLLState) (ids : List Nat) (hr : Represents s ids)
    (p : Nat) (hp : s.head = some p) (r : Option Int) (s2 : DLLState)
    (hpop : pop_left s = some (r, s2)) :
    ¬ Live s2 p ∧ ∀ j, Live s2 j → (s2.heap j).next ≠ some p ∧ (s2.heap j).prev ≠ some p := by
  obtain ⟨rest, hids⟩ : ∃ rest, ids = p :: rest := by
    have hh := hr.head_ok
    rw [hp] at hh
    cases ids with
    | nil => exact absurd hh.symm (by simp)
    | cons a as =>
        simp only [List.head?_cons, Option.some.injEq] at hh
        exact ⟨as, by rw [← hh]⟩
  subst hids
  have hpnotin : p ∉ rest := (List.nodup_cons.mp hr.nodup).1
  obtain ⟨t2, hpop', hrep2, hval, hfresh⟩ := pop_left_rep s (p :: rest) hr
  rw [hpop] at hpop'
  injection hpop' with h1
  injection h1 with hv hs2
  subst hs2
  have hlive : ∀ j, Live s2 j → j ∈ rest := by
    intro j hl
    obtain ⟨k, hf⟩ := (hl : ∃ k, follow s2.heap s2.head k = some j)
    rw [hrep2.head_ok] at hf
    exact follow_mem_seg s2.heap rest none hrep2.seg_ok k j hf
  refine ⟨fun hl => hpnotin (hlive p hl), ?_⟩
  intro j hl
  have hj : j ∈ rest := hlive j hl
  constructor
  · intro hx
    exact hpnotin (seg_next_mem s2.heap rest none hrep2.seg_ok j p hj hx)
  · intro hx
    rcases seg_prev_mem_or s2.heap rest none none hrep2.seg_ok j p hj hx with hin | hnone
    · exact hpnotin hin
    · exact Option.noConfusion hnone

theorem pop_right_detach (s : DLLState) (ids : List Nat) (hr : Represents s ids)
    (q : Nat) (hq : s.tail = some q) (r : Option Int) (s2 : DLLState)
    (hpop : pop_right s = some (r, s2)) :
    ¬ Live s2 q ∧ ∀ j, Live s2 j → (s2.heap j).next ≠ some q ∧ (s2.heap j).prev ≠ some q := by
  obtain ⟨ys, hids⟩ : ∃ ys, ids = ys ++ [q] := by
    have ht := hr.tail_ok
    rw [hq] at ht
    rcases List.eq_nil_or_concat ids with rfl | ⟨zs, a, rfl⟩
    · exact absurd ht.symm (by simp)
    · simp only [List.concat_eq_append, List.getLast?_concat] at ht
      have haq : a = q := by
        injection ht.symm
      exact ⟨zs, by rw [List.concat_eq_append, haq]⟩
  subst hids
  have hqnotin : q ∉ ys := by
    have hd := List.disjoint_of_nodup_append hr.nodup
    intro hx
    exact hd hx (List.mem_singleton.mpr rfl)
  obtain ⟨t2, hpop', hrep2⟩ := pop_right_rep s (ys ++ [q]) hr
  have hdl : (ys ++ [q]).dropLast = ys := by simp
  rw [hdl] at hrep2
  rw [hpop] at hpop'
  injection hpop' with h1
  injection h1 with hv hs2
  subst hs2
  have hlive : ∀ j, Live s2 j → j ∈ ys := by
    intro j hl
    obtain ⟨k, hf⟩ := (hl : ∃ k, follow s2.heap s2.head k = some j)
    rw [hrep2.head_ok] at hf
    exact follow_mem_seg s2.heap ys none hrep2.seg_ok k j hf
  refine ⟨fun hl => hqnotin (hlive q hl), ?_⟩
  intro j hl
  have hj : j ∈ ys := hlive j hl
  constructor
  · intro hx
    exact hqnotin (seg_next_mem s2.heap ys none hrep2.seg_ok j q hj hx)
  · intro hx
    rcases seg_prev_mem_or s2.heap ys none none hrep2.seg_ok j q hj hx with hin | hnone
    · exact hqnotin hin
    · exact Option.noConfusion hnone

def exList : DLLState :=
  append_left (append_left (append_right (append_right (append_right emptyDLL 1) 2) 3) 0) (-1)

theorem exList_reachable : Reachable exList :=
  Reachable.appL (-1) (Reachable.appL 0 (Reachable.appR 3 (Reachable.appR 2
    (Reachable.appR 1 Reachable.empty))))

/-- C1: on every state reachable from the empty list through the public
operations (the mutators generate `Reachable`; `get` and iteration are
embedded as pure functions of the state, so they trivially preserve it),
`head` is absent iff `tail` is absent iff `length = 0`, and `length`
equals the number of elements a full iteration yields, which is also
the number of `next` steps from `head` until absence. -/
theorem claim_C1_invariants (s : DLLState) (hs : Reachable s) :
    (s.head = none ↔ s.tail = none) ∧ (s.head = none ↔ s.length = 0) ∧
    s.length = ((toList s).length : Int) ∧
    follow s.heap s.head s.length.toNat = none := by
  obtain ⟨l, hm⟩ := reachable_models s hs
  obtain ⟨ids, hr, habs⟩ := hm
  have htl : toList s = l := models_toList s l ⟨ids, hr, habs⟩
  have hlen : s.length = (ids.length : Int) := hr.len_ok
  refine ⟨?_, ?_, ?_, ?_⟩
  · rw [hr.head_ok, hr.tail_ok, List.head?_eq_none_iff, List.getLast?_eq_none_iff]
  · rw [hr.head_ok, List.head?_eq_none_iff, hlen]
    constructor
    · intro h
      subst h
      rfl
    · intro h
      have h0 : ids.length = 0 := by exact_mod_cast h
      exact List.length_eq_zero.mp h0
  · rw [htl, ← habs, absList, List.length_map, hlen]
  · rw [hr.head_ok, hlen, Int.toNat_natCast]
    exact follow_len_seg s.heap ids none hr.seg_ok

theorem claim_C1_witness :
    (exList.head = none ↔ exList.tail = none) ∧
    (exList.head = none ↔ exList.length = 0) ∧
    exList.length = ((toList exList).length : Int) ∧
    follow exList.heap exList.head exList.length.toNat = none :=
  claim_C1_invariants exList exList_reachable

/-- C2: on every reachable state and every index with
`0 ≤ index < length`, both traversal branches of `get` agree: the
forward walk of `index` steps from `head` and the backward walk of
`length - index - 1` steps from `tail` reach the same node, `get`
returns that node's value without any assertion failure, and that value
is the `index`-th element of the iteration sequence.  The embedded
`get` is a pure function of the state (the source method performs no
writes), so the list is not mutated. -/
theorem claim_C2_get (s : DLLState) (index : Int) (hs : Reachable s)
    (h0 : 0 ≤ index) (hl : index < s.length) :
    ∃ j : Nat,
      walkFwd s.heap s.head index.toNat = some (some j) ∧
      walkBwd s.heap s.tail (s.length - index - 1).toNat = some (some j) ∧
      get s index = GetResult.ok ((s.heap j).value) ∧
      get s index = GetResult.ok ((toList s).getD index.toNat 0) := by
  obtain ⟨l, hm⟩ := reachable_models s hs
  obtain ⟨ids, hr, habs⟩ := hm
  obtain ⟨j, hj, hw1, hw2, hget⟩ := rep_get s ids hr index h0 hl
  obtain ⟨hkn, hjeq⟩ := (List.getElem?_eq_some_iff).mp hj
  refine ⟨j, hw1, hw2, hget, ?_⟩
  rw [hget]
  have htl : toList s = l := models_toList s l ⟨ids, hr, habs⟩
  rw [htl, ← habs, absList,
    List.getD_eq_getElem _ _ (by simpa using hkn), List.getElem_map, hjeq]

theorem claim_C2_witness :
    ∃ j : Nat,
      walkFwd exList.heap exList.head (2 : Int).toNat = some (some j) ∧
      walkBwd exList.heap exList.tail (exList.length - 2 - 1).toNat = some (some j) ∧
      get exList 2 = GetResult.ok ((exList.heap j).value) ∧
      get exList 2 = GetResult.ok ((toList exList).getD (2 : Int).toNat 0) :=
  claim_C2_get exList 2 exList_reachable (by decide) (by decide)

def startSeven : DLLState := append_right emptyDLL 7

/-- C3 counterexample: the claim quantifies over every starting state,
but with the non-empty starting list [7], appending 1 then 2 on the
left and popping twice from the opposite (right) side returns
[7, 1] — the pre-existing element first — not the insertion order
[1, 2]. -/
theorem claim_C3_counterexample :
    (popN_right (appendAllLeft startSeven [1, 2]) 2).map Prod.fst
      = some [some 7, some 1] ∧
    some [some 7, some 1] ≠ some [some (1 : Int), some 2] := by
  decide

/-- C3 (amended): for every reachable starting state, appending any
values and then popping that many times from the same side returns them
in exact reverse insertion order; popping that many times from the
opposite side returns them in original insertion order when the
starting list is empty (for a non-empty starting state the opposite
side reaches the pre-existing elements first, as the counterexample
shows). -/
theorem claim_C3_roundtrip (s : DLLState) (hs : Reachable s) (vs : List Int) :
    (popN_left (appendAllLeft s vs) vs.length).map Prod.fst
      = some (vs.reverse.map some) ∧
    (popN_right (appendAllRight s vs) vs.length).map Prod.fst
      = some (vs.reverse.map some) ∧
    (popN_right (appendAllLeft emptyDLL vs) vs.length).map Prod.fst
      = some (vs.map some) ∧
    (popN_left (appendAllRight emptyDLL vs) vs.length).map Prod.fst
      = some (vs.map some) := by
  obtain ⟨l, hm⟩ := reachable_models s hs
  refine ⟨?_, ?_, ?_, ?_⟩
  · have h1 := models_appendAllLeft s l vs hm
    obtain ⟨s2, hpn, -⟩ := popN_left_models _ _ h1 vs.length (by simp)
    rw [hpn, Option.map_some']
    have ht : (vs.reverse ++ l).take vs.length = vs.reverse := by
      rw [show vs.length = vs.reverse.length from (List.length_reverse vs).symm,
        List.take_left]
    rw [ht]
  · have h1 := models_appendAllRight s l vs hm
    obtain ⟨s2, hpn, -⟩ := popN_right_models _ _ h1 vs.length (by simp)
    rw [hpn, Option.map_some']
    have ht : (l ++ vs).reverse.take vs.length = vs.reverse := by
      rw [List.reverse_append,
        show vs.length = vs.reverse.length from (List.length_reverse vs).symm,
        List.take_left]
    rw [ht]
  · have h1 := models_appendAllLeft emptyDLL [] vs models_empty
    rw [List.append_nil] at h1
    obtain ⟨s2, hpn, -⟩ := popN_right_models _ _ h1 vs.length (by simp)
    rw [hpn, Option.map_some']
    have ht : vs.reverse.reverse.take vs.length = vs := by
      rw [List.reverse_reverse, List.take_length]
    rw [ht]
  · have h1 := models_appendAllRight emptyDLL [] vs models_empty
    rw [List.nil_append] at h1
    obtain ⟨s2, hpn, -⟩ := popN_left_models _ _ h1 vs.length (by simp)
    rw [hpn, Option.map_some']
    rw [List.take_length]

theorem claim_C3_witness :
    (popN_left (appendAllLeft startSeven [1, 2]) ([1, 2] : List Int).length).map Prod.fst
      = some (([1, 2] : List Int).reverse.map some) ∧
    (popN_right (appendAllRight startSeven [1, 2]) ([1, 2] : List Int).length).map Prod.fst
      = some (([1, 2] : List Int).reverse.map some) ∧
    (popN_right (appendAllLeft emptyDLL [1, 2]) ([1, 2] : List Int).length).map Prod.fst
      = some (([1, 2] : List Int).map some) ∧
    (popN_left (appendAllRight emptyDLL [1, 2]) ([1, 2] : List Int).length).map Prod.fst
      = some (([1, 2] : List Int).map some) :=
  claim_C3_roundtrip startSeven (Reachable.appR 7 Reachable.empty) [1, 2]

/-- C4: on every reachable state, `append_left v` immediately followed
by `pop_left` returns `v` and leaves a state observationally equal to
the original (same iteration sequence and same length), and
symmetrically for `append_right v` followed by `pop_right`. -/
theorem claim_C4_symmetry (s : DLLState) (v : Int) (hs : Reachable s) :
    (∃ s2, pop_left (append_left s v) = some (some v, s2) ∧
      toList s2 = toList s ∧ s2.length = s.length) ∧
    (∃ s3, pop_right (append_right s v) = some (some v, s3) ∧
      toList s3 = toList s ∧ s3.length = s.length) := by
  obtain ⟨l, hm⟩ := reachable_models s hs
  constructor
  · have h1 := models_append_left s l v hm
    obtain ⟨s2, hpop, hm2⟩ := models_pop_left _ _ h1
    refine ⟨s2, by simpa using hpop, ?_, ?_⟩
    · rw [models_toList s2 l (by simpa using hm2), models_toList s l hm]
    · rw [models_length s2 l (by simpa using hm2), models_length s l hm]
  · have h1 := models_append_right s l v hm
    obtain ⟨s3, hpop, hm3⟩ := models_pop_right _ _ h1
    refine ⟨s3, by simpa using hpop, ?_, ?_⟩
    · rw [models_toList s3 l (by simpa using hm3), models_toList s l hm]
    · rw [models_length s3 l (by simpa using hm3), models_length s l hm]

theorem claim_C4_witness :
    (∃ s2, pop_left (append_left exList 42) = some (some 42, s2) ∧
      toList s2 = toList exList ∧ s2.length = exList.length) ∧
    (∃ s3, pop_right (append_right exList 42) = some (some 42, s3) ∧
      toList s3 = toList exList ∧ s3.length = exList.length) :=
  claim_C4_symmetry exList 42 exList_reachable

/-- C5: on every reachable state with `length = 0` (the invariant makes
`head` and `tail` absent there), `pop_left` and `pop_right` return the
empty indicator `None` and return the state literally unchanged, so
any number of repeated pops keeps returning `None` with no side
effects and no assertion failure. -/
theorem claim_C5_empty_pops (s : DLLState) (hs : Reachable s) (hlen : s.length = 0) :
    pop_left s = some (none, s) ∧ pop_right s = some (none, s) ∧
    ∀ n : Nat, popN_left s n = some (List.replicate n none, s) ∧
      popN_right s n = some (List.replicate n none, s) := by
  obtain ⟨l, hm⟩ := reachable_models s hs
  obtain ⟨ids, hr, habs⟩ := hm
  have hids : ids = [] := by
    have h1 := hr.len_ok
    rw [hlen] at h1
    have h0 : ids.length = 0 := by exact_mod_cast h1.symm
    exact List.length_eq_zero.mp h0
  have hh : s.head = none := by
    rw [hr.head_ok, hids]
    rfl
  have ht : s.tail = none := by
    rw [hr.tail_ok, hids]
    rfl
  exact ⟨by simp [pop_left, hh], by simp [pop_right, ht],
    fun n => ⟨popN_left_empty s hh n, popN_right_empty s ht n⟩⟩

theorem claim_C5_witness :
    pop_left emptyDLL = some (none, emptyDLL) ∧
    pop_right emptyDLL = some (none, emptyDLL) ∧
    ∀ n : Nat, popN_left emptyDLL n = some (List.replicate n none, emptyDLL) ∧
      popN_right emptyDLL n = some (List.replicate n none, emptyDLL) :=
  claim_C5_empty_pops emptyDLL Reachable.empty rfl

def oneList : DLLState := append_right emptyDLL 5

/-- C6 counterexample: the out-of-bounds error raised by `get` carries
only the fixed message "Index out of range" from the source
(`raise IndexError("Index out of range")`): two different invalid
indices produce byte-for-byte identical errors, so the error does not
carry the invalid index for diagnostics. -/
theorem claim_C6_counterexample :
    get oneList 99 = GetResult.indexError "Index out of range" ∧
    get oneList 100 = GetResult.indexError "Index out of range" ∧
    (99 : Int) ≠ 100 := by
  decide

/-- C6 (amended): on every reachable state, `get` raises the
out-of-bounds `IndexError` — with the constant message
"Index out of range", not carrying the offending index — exactly when
`index < 0 ∨ index ≥ length`; for every in-range index it instead
returns a stored value, so an invalid index is never silently clamped
or wrapped.  The embedded `get` is a pure function of the state (the
source method performs no writes), so the state is unchanged on the
error path. -/
theorem claim_C6_bounds (s : DLLState) (index : Int) (hs : Reachable s) :
    (get s index = GetResult.indexError "Index out of range" ↔
      (index < 0 ∨ index ≥ s.length)) ∧
    ((0 ≤ index ∧ index < s.length) → ∃ v, get s index = GetResult.ok v) := by
  obtain ⟨l, hm⟩ := reachable_models s hs
  obtain ⟨ids, hr, habs⟩ := hm
  have hok : ∀ (h0 : 0 ≤ index) (hl : index < s.length),
      ∃ v, get s index = GetResult.ok v := by
    intro h0 hl
    obtain ⟨j, -, -, -, hget⟩ := rep_get s ids hr index h0 hl
    exact ⟨_, hget⟩
  refine ⟨⟨?_, ?_⟩, fun h => hok h.1 h.2⟩
  · intro hi
    by_contra hni
    push_neg at hni
    obtain ⟨v, hv⟩ := hok hni.1 hni.2
    rw [hv] at hi
    exact GetResult.noConfusion hi
  · intro hi
    rw [get_unfold, if_pos hi]

theorem claim_C6_witness :
    (get oneList 0 = GetResult.indexError "Index out of range" ↔
      ((0 : Int) < 0 ∨ (0 : Int) ≥ oneList.length)) ∧
    ((0 ≤ (0 : Int) ∧ (0 : Int) < oneList.length) →
      ∃ v, get oneList 0 = GetResult.ok v) :=
  claim_C6_bounds oneList 0 (Reachable.appR 5 Reachable.empty)

def twoList : DLLState := append_right (append_right emptyDLL 1) 2

def twoListPopped : DLLState := ((pop_left twoList).getD (none, emptyDLL)).2

/-- C7 counterexample: popping the head of the two-element list [1, 2]
(node id 0) leaves the popped node's `next` still pointing at node 1,
which is the head of the live list: the code never clears the popped
node's `next` reference, so at the object level the popped node does
retain a reference into the live list (it is reclaimed only by the
host runtime's reference counting). -/
theorem claim_C7_counterexample :
    twoList.head = some 0 ∧
    (pop_left twoList).map (fun r => ((r.2.heap 0).next, r.2.head)) =
      some (some 1, some 1) := by
  constructor
  · rfl
  · rfl

/-- C7 (amended): after a pop from a non-empty reachable list, the live
list retains no reference to the popped node: the popped node is no
longer reachable from `head`, and no node reachable from `head` holds
a `next` or `prev` reference to it.  (The popped node's own outgoing
link into the list is not cleared — see the counterexample — the node
object is discarded only by the host runtime once the operation
returns and no reference to it survives.) -/
theorem claim_C7_detach (s : DLLState) (hs : Reachable s) :
    (∀ p r s2, s.head = some p → pop_left s = some (r, s2) →
      ¬ Live s2 p ∧
      ∀ j, Live s2 j → (s2.heap j).next ≠ some p ∧ (s2.heap j).prev ≠ some p) ∧
    (∀ q r s2, s.tail = some q → pop_right s = some (r, s2) →
      ¬ Live s2 q ∧
      ∀ j, Live s2 j → (s2.heap j).next ≠ some q ∧ (s2.heap j).prev ≠ some q) := by
  obtain ⟨l, hm⟩ := reachable_models s hs
  obtain ⟨ids, hr, -⟩ := hm
  exact ⟨fun p r s2 hp hpop => pop_left_detach s ids hr p hp r s2 hpop,
    fun q r s2 hq hpop => pop_right_detach s ids hr q hq r s2 hpop⟩

theorem claim_C7_witness :
    ¬ Live twoListPopped 0 ∧
    ∀ j, Live twoListPopped j → (twoListPopped.heap j).next ≠ some 0 ∧
      (twoListPopped.heap j).prev ≠ some 0 :=
  (claim_C7_detach twoList
    (Reachable.appR 2 (Reachable.appR 1 Reachable.empty))).1 0 (some 1)
    twoListPopped rfl rfl

/-- C8: the length-tracked variant (doubly_linked_list.py) and the
untracked variant (linked_list.py) are observationally equivalent on
their shared operations: running any sequence of append_left,
append_right, pop_left and pop_right calls from the two freshly
initialised lists, the untracked run is exactly the length-erasure of
the tracked run — the same assertion behaviour, the same value
returned by every pop, and the same iteration sequence of the final
states. -/
theorem claim_C8_equiv (ops : List Op) :
    runLL LL.emptyLL ops = Option.map (fun q => (erase q.1, q.2)) (runDLL emptyDLL ops) ∧
    (runDLL emptyDLL ops).map (fun q => (toList q.1, q.2)) =
      (runLL LL.emptyLL ops).map (fun q => (LL.toList q.1, q.2)) := by
  have h1 : runLL LL.emptyLL ops
      = Option.map (fun q => (erase q.1, q.2)) (runDLL emptyDLL ops) :=
    runLL_erase ops emptyDLL
  refine ⟨h1, ?_⟩
  rw [h1]
  cases runDLL emptyDLL ops with
  | none => rfl
  | some q => rfl

/-- C9: on every reachable state, the internal assertions of the
container never fire: `pop_left` and `pop_right` never hit their
`assert` (modelled by returning `none`), and `get` never returns the
assertion-failure indicator for any index whatsoever. -/
theorem claim_C9_asserts (s : DLLState) (hs : Reachable s) :
    pop_left s ≠ none ∧ pop_right s ≠ none ∧
    ∀ index : Int, get s index ≠ GetResult.assertFail := by
  obtain ⟨l, hm⟩ := reachable_models s hs
  obtain ⟨ids, hr, habs⟩ := hm
  refine ⟨?_, ?_, ?_⟩
  · obtain ⟨s2, hpop, -⟩ := models_pop_left s l ⟨ids, hr, habs⟩
    intro hx
    rw [hpop] at hx
    exact Option.noConfusion hx
  · obtain ⟨s2, hpop, -⟩ := models_pop_right s l ⟨ids, hr, habs⟩
    intro hx
    rw [hpop] at hx
    exact Option.noConfusion hx
  · intro index
    by_cases hi : index < 0 ∨ index ≥ s.length
    · rw [get_unfold, if_pos hi]
      intro hx
      exact GetResult.noConfusion hx
    · push_neg at hi
      obtain ⟨j, -, -, -, hget⟩ := rep_get s ids hr index hi.1 hi.2
      rw [hget]
      intro hx
      exact GetResult.noConfusion hx

theorem claim_C9_witness :
    pop_left exList ≠ none ∧ pop_right exList ≠ none ∧
    ∀ index : Int, get exList index ≠ GetResult.assertFail :=
  claim_C9_asserts exList exList_reachable

/-- C10: iteration always terminates on every reachable state: the
`next` chain from `head` is finite and reaches absence after exactly
`length` steps, the iteration sequence has exactly `length` elements,
and granting the fueled traversal any fuel of at least `length` yields
the same finite sequence — so `__iter__` yields exactly `length`
values and stops, and `get`'s bounded walks terminate likewise. -/
theorem claim_C10_termination (s : DLLState) (hs : Reachable s) :
    follow s.heap s.head s.length.toNat = none ∧
    ((toList s).length : Int) = s.length ∧
    ∀ fuel : Nat, s.length.toNat ≤ fuel → iterFrom s.heap s.head fuel = toList s := by
  obtain ⟨l, hm⟩ := reachable_models s hs
  obtain ⟨ids, hr, habs⟩ := hm
  have hlen : s.length = (ids.length : Int) := hr.len_ok
  have hlt : s.length.toNat = ids.length := by rw [hlen, Int.toNat_natCast]
  refine ⟨?_, ?_, ?_⟩
  · rw [hr.head_ok, hlt]
    exact follow_len_seg s.heap ids none hr.seg_ok
  · rw [models_toList s l ⟨ids, hr, habs⟩, ← habs, absList, List.length_map, hlen]
  · intro fuel hf
    rw [hlt] at hf
    have h1 := iterFrom_seg s.heap ids none hr.seg_ok fuel hf
    rw [models_toList s l ⟨ids, hr, habs⟩, hr.head_ok, h1, habs]

theorem claim_C10_witness :
    follow exList.heap exList.head exList.length.toNat = none ∧
    ((toList exList).length : Int) = exList.length ∧
    ∀ fuel : Nat, exList.length.toNat ≤ fuel →
      iterFrom exList.heap exList.head fuel = toList exList :=
  claim_C10_termination exList exList_reachable
